import Mathlib

/-!
Verification of the core of the chum static binary rewriter
(src/chum/source/main.cpp) against its natural-language specification.

The C++ code is shallowly embedded: machine integers become Nat / Int with
explicit wrap-arounds (Int.bmod / Int.emod) where the source relies on
fixed-width arithmetic, fallible routines return Option, and the Zydis
decoder is abstracted as a function from file offsets to decoded
instructions.  Every definition follows the corresponding source function;
comments cite the source lines.
-/

namespace Chum

/-! ### PE sections and rva_to_file_offset (main.cpp:826-835) -/

/-- The three section-header fields read by rva_to_file_offset. -/
structure PESection where
  virtualAddress : Nat
  virtualSize : Nat
  pointerToRawData : Nat
deriving DecidableEq, Repr

/-- main.cpp:826-835: scan the section table in order; the first section
whose virtual range [VirtualAddress, VirtualAddress + VirtualSize) contains
the RVA wins; if no section matches, 0 is returned. -/
def rva_to_file_offset : List PESection → Nat → Nat
  | [], _ => 0
  | s :: ss, rva =>
    if s.virtualAddress ≤ rva ∧ rva < s.virtualAddress + s.virtualSize then
      (rva - s.virtualAddress) + s.pointerToRawData
    else
      rva_to_file_offset ss rva

/-! ### The disassembly model (chum_parser::parse2, main.cpp:604-779)

The Zydis decoder is abstracted as `decode : Nat → Option DecInstr`, mapping
the file offset of an instruction to its decoded form (length, category and
whether ZYDIS_ATTRIB_IS_RELATIVE is set).  `none` models a decode failure,
which in the source also happens at the end of the file buffer; the fuel
argument of the block-decoding loop plays the role of the finite buffer. -/

/-- Zydis instruction categories distinguished by parse2. -/
inductive ICat where
  | call
  | uncondBr
  | condBr
  | ret
  | interrupt
  | other
deriving DecidableEq, Repr

/-- A decoded instruction, as far as parse2 looks at it. -/
structure DecInstr where
  length : Nat
  category : ICat
  isRelative : Bool
deriving DecidableEq, Repr

/-- The code_block structure (main.cpp:18-40).  final_virtual_address is the
absolute address assigned at write time (0 until then); expected_size and
final_size share one union field in the source, but the overwritten value is
never read back, so the model keeps expected_size and reports final sizes
separately. -/
structure CodeBlockM where
  virtual_offset : Nat
  file_offset : Nat
  file_size : Nat
  expected_size : Nat
  is_relative : Bool
  finalAddr : Nat
deriving DecidableEq, Repr

/-- create_empty_code_block (main.cpp:611-626). -/
def emptyBlock (rva fileOff : Nat) : CodeBlockM :=
  ⟨rva, fileOff, 0, 0, false, 0⟩

/-- main.cpp:695-700: a relative code block holds a single instruction, so if
the current block is relative it is closed and a fresh empty block starts at
the current offset.  The List DecInstr components record, per block, the
instructions appended to it (ghost data used to state invariants). -/
def closeIfRelative (blockRva fileOff off : Nat) (cb : CodeBlockM)
    (instrs : List DecInstr) (acc : List (CodeBlockM × List DecInstr)) :
    CodeBlockM × List DecInstr × List (CodeBlockM × List DecInstr) :=
  if cb.is_relative then
    (emptyBlock (blockRva + off) (fileOff + off), [], acc ++ [(cb, instrs)])
  else
    (cb, instrs, acc)

/-- main.cpp:702-723: append the decoded instruction to the current block.
A relative instruction turns the (empty) current block into a relative block
of exactly its length and expected_size length + 32; if the current block
already has contents it is closed first.  A non-relative instruction extends
file_size and expected_size by its length. -/
def appendInstr (blockRva fileOff off : Nat) (i : DecInstr) (cb : CodeBlockM)
    (instrs : List DecInstr) (acc : List (CodeBlockM × List DecInstr)) :
    CodeBlockM × List DecInstr × List (CodeBlockM × List DecInstr) :=
  if i.isRelative then
    if 0 < cb.file_size then
      let fresh := emptyBlock (blockRva + off) (fileOff + off)
      ({ fresh with
          is_relative := true
          file_size := i.length
          expected_size := i.length + 32 },
        [i], acc ++ [(cb, instrs)])
    else
      ({ cb with
          is_relative := true
          file_size := i.length
          expected_size := i.length + 32 }, instrs ++ [i], acc)
  else
    ({ cb with
        file_size := cb.file_size + i.length
        expected_size := cb.expected_size + i.length }, instrs ++ [i], acc)

/-- Exit points (main.cpp:729-740): RET, INTERRUPT and UNCOND_BR terminate
the block-decoding loop. -/
def isExitPoint (c : ICat) : Prop :=
  c = ICat.ret ∨ c = ICat.interrupt ∨ c = ICat.uncondBr

instance (c : ICat) : Decidable (isExitPoint c) := by
  unfold isExitPoint; infer_instance

/-- The inner decoding loop of parse2 (main.cpp:653-771).  A decode failure
makes the whole parse fail (main.cpp:662-665 returns false); fuel models the
finite file buffer.  Returns the blocks created for this work-queue entry,
in creation order, each paired with its instructions. -/
def decodeLoop (decode : Nat → Option DecInstr) (blockRva fileOff : Nat) :
    Nat → Nat → CodeBlockM → List DecInstr →
    List (CodeBlockM × List DecInstr) →
    Option (List (CodeBlockM × List DecInstr))
  | 0, _, _, _, _ => none
  | fuel + 1, off, cb, instrs, acc =>
    match decode (fileOff + off) with
    | none => none
    | some i =>
      let s1 := closeIfRelative blockRva fileOff off cb instrs acc
      let s2 := appendInstr blockRva fileOff off i s1.1 s1.2.1 s1.2.2
      if isExitPoint i.category then
        some (s2.2.2 ++ [(s2.1, s2.2.1)])
      else
        decodeLoop decode blockRva fileOff fuel (off + i.length) s2.1 s2.2.1 s2.2.2

/-- The work-queue loop of parse2 (main.cpp:636-772).  The source's
already_disassembled is the constant false lambda (main.cpp:606-608), so
every popped RVA is processed.  NOTE: the source never pushes anything onto
process_queue after seeding it (the CALL / branch targets at
main.cpp:686-691 are only logged), so the queue only shrinks. -/
def parse2Go (decode : Nat → Option DecInstr) (sections : List PESection)
    (fuel : Nat) :
    List Nat → List (CodeBlockM × List DecInstr) →
    Option (List (CodeBlockM × List DecInstr))
  | [], acc => some acc
  | rva :: rest, acc =>
    let fo := rva_to_file_offset sections rva
    match decodeLoop decode rva fo fuel 0 (emptyBlock rva fo) [] [] with
    | none => none
    | some blocks => parse2Go decode sections fuel rest (acc ++ blocks)

/-- chum_parser::parse2.  The seeds are the runtime-function BeginAddress
values pushed in array order (main.cpp:631-634); process_queue is popped
from the back (main.cpp:637-638), i.e. it is a stack, so the seeds are
processed in reverse order. -/
def parse2 (decode : Nat → Option DecInstr) (sections : List PESection)
    (fuel : Nat) (seeds : List Nat) :
    Option (List (CodeBlockM × List DecInstr)) :=
  parse2Go decode sections fuel seeds.reverse []

/-! ### Branch re-encoding (chum_parser::reencode_relative_branch,
main.cpp:874-944)

The decoded branch is abstracted to its category (UNCOND_BR / COND_BR /
everything else, which the source treats as CALL), the popcount of the
encoder-request prefix mask, and the new start-relative delta.  The Zydis
encoder itself is not modelled: the source asserts that the emitted length
equals the predicted one (main.cpp:941), so the result is the predicted
length, the size of the relative operand, and the immediate stored in it. -/

inductive BranchKind where
  | jmp
  | jcc
  | call
deriving DecidableEq, Repr

/-- main.cpp:896-898: is_jmp / is_jcc from the category, is_call otherwise. -/
def isCall (k : BranchKind) : Bool :=
  !(k = BranchKind.jmp) && !(k = BranchKind.jcc)

/-- main.cpp:904-943.  Returns (instruction length, operand size, stored
immediate) on success and none when the delta fits no relative form
(the BranchOutOfRange case, main.cpp:924-927).  The stored immediate is
delta - predicted_instruction_length (main.cpp:932-933). -/
def reencode_relative_branch (k : BranchKind) (prefixCount : Nat) (delta : Int) :
    Option (Nat × Nat × Int) :=
  if ¬isCall k ∧ |delta - ((prefixCount : Int) + 2)| ≤ 0x7F then
    some (prefixCount + 2, 1, delta - ((prefixCount : Int) + 2))
  else if ¬(k = BranchKind.jcc) ∧ |delta - ((prefixCount : Int) + 5)| ≤ 0x7FFFFFFF then
    some (prefixCount + 5, 4, delta - ((prefixCount : Int) + 5))
  else if k = BranchKind.jcc ∧ |delta - ((prefixCount : Int) + 6)| ≤ 0x7FFFFFFF then
    some (prefixCount + 6, 4, delta - ((prefixCount : Int) + 6))
  else
    none

/-! ### The code region writer (main.cpp:59-136)

Output memory is a list of (base address, size) regions; bytes themselves are
not tracked here, only the write cursor.  current_region_idx_ is fixed to 0
in the source constructor and advance() is an unimplemented stub. -/

structure MemRegion where
  base : Nat
  size : Nat
deriving DecidableEq, Repr

structure WriterSt where
  regions : List MemRegion
  regionIdx : Nat
  offset : Nat
deriving DecidableEq, Repr

def currentRegion (w : WriterSt) : MemRegion :=
  w.regions.getD w.regionIdx ⟨0, 0⟩

/-- main.cpp:123-125. -/
def currentWriteAddress (w : WriterSt) : Nat :=
  (currentRegion w).base + w.offset

/-- code_region_writer::write (main.cpp:88-99): fails when the write does not
fit in the current region; otherwise advances the cursor. -/
def writerWrite (w : WriterSt) (size : Nat) : Option WriterSt :=
  if (currentRegion w).size < w.offset + size then none
  else some { w with offset := w.offset + size }

/-- code_region_writer::advance (main.cpp:117-120): the body is a TODO and
the function unconditionally returns false. -/
def writerAdvance (_w : WriterSt) : Option WriterSt :=
  none

/-- code_region_writer::force_write (main.cpp:105-112): retry the write after
advancing, for as long as advance succeeds.  On success, returns the new
writer state together with the final_virtual_address and final_size recorded
into the code block.  The fuel bounds the retry loop (it is irrelevant while
advance is the stub). -/
def forceWrite : Nat → WriterSt → Nat → Option (WriterSt × Nat × Nat)
  | 0, _, _ => none
  | fuel + 1, w, size =>
    match writerWrite w size with
    | some w2 => some (w2, currentWriteAddress w, size)
    | none =>
      match writerAdvance w with
      | none => none
      | some w2 => forceWrite fuel w2 size

/-! ### Data emission (chum_parser::write_data_blocks, main.cpp:216-265) -/

/-- The data_block structure (main.cpp:42-57), with the final virtual
address assigned at write time (0 until then). -/
structure DataBlockM where
  virtual_offset : Nat
  file_offset : Nat
  file_size : Nat
  virtual_size : Nat
  finalAddr : Nat
deriving DecidableEq, Repr

/-- main.cpp:247-257: the destination is zero-filled to virtual_size
(memset), then min(file_size, virtual_size) bytes are copied from the file
buffer at file_offset over the front. -/
def renderDataBlock (fileBuf : List Nat) (db : DataBlockM) : List Nat :=
  let n := min db.file_size db.virtual_size
  (fileBuf.drop db.file_offset).take n ++ (List.replicate db.virtual_size 0).drop n

/-- The loop body of write_data_blocks (main.cpp:232-262).  The source never
increments curr_region_idx, so all blocks go into the given region; off is
curr_region_offset.  Returns, per block, its final address and its rendered
bytes. -/
def writeDataGo (fileBuf : List Nat) (region : MemRegion) :
    Nat → List DataBlockM → Option (List (Nat × List Nat))
  | _, [] => some []
  | off, db :: rest =>
    if region.size - off < db.virtual_size then none
    else
      match writeDataGo fileBuf region (off + db.virtual_size) rest with
      | none => none
      | some out => some ((region.base + off, renderDataBlock fileBuf db) :: out)

/-- chum_parser::write_data_blocks (main.cpp:216-265): an empty block list
succeeds immediately (before the region check); otherwise an empty region
list fails, and the blocks are appended sequentially to the first region. -/
def write_data_blocks (regions : List MemRegion) (fileBuf : List Nat)
    (dbs : List DataBlockM) : Option (List (Nat × List Nat)) :=
  match dbs with
  | [] => some []
  | _ :: _ =>
    match regions with
    | [] => none
    | r :: _ => writeDataGo fileBuf r 0 dbs

/-! ### Adjusted target deltas
(chum_parser::calculate_adjusted_target_delta, main.cpp:978-1061) -/

def cbDefault : CodeBlockM := emptyBlock 0 0

/-- main.cpp:990-1004: the data-block scan uses the half-open range
[virtual_offset, virtual_offset + virtual_size). -/
def findDataBlock (dbs : List DataBlockM) (t : Nat) : Option DataBlockM :=
  dbs.find? fun db =>
    decide (db.virtual_offset ≤ t) && decide (t < db.virtual_offset + db.virtual_size)

/-- main.cpp:1008-1038: scan blocks backwards from the current one; the
containment test t < vo || t > vo + file_size is inclusive at the upper end.
The argument list is the blocks from the current one down to index 0. -/
def backwardScan (curAddr t : Nat) : List CodeBlockM → Option (Int × Bool)
  | [] => none
  | b :: bs =>
    if t < b.virtual_offset ∨ b.virtual_offset + b.file_size < t then
      backwardScan curAddr t bs
    else if b.is_relative ∧ ¬(b.virtual_offset = t) then
      none
    else
      some (((b.finalAddr + (t - b.virtual_offset) : Nat) : Int) - (curAddr : Int), true)

/-- main.cpp:1043-1055: scan blocks forward from the current one inclusive,
accumulating expected_size before the containment test; the accumulated sum
is the pessimistic delta of a forward target. -/
def forwardScan (t : Nat) (acc : Int) : List CodeBlockM → Option (Int × Bool)
  | [] => none
  | b :: bs =>
    let acc2 := acc + (b.expected_size : Int)
    if t < b.virtual_offset ∨ b.virtual_offset + b.file_size < t then
      forwardScan t acc2 bs
    else
      some (acc2, false)

/-- chum_parser::calculate_adjusted_target_delta (main.cpp:978-1061): data
targets and backward code targets are fully resolved; forward code targets
get the pessimistic accumulated delta; a target in no block fails. -/
def calcAdjustedTargetDelta (blocks : List CodeBlockM) (dbs : List DataBlockM)
    (curIdx curAddr t : Nat) : Option (Int × Bool) :=
  match findDataBlock dbs t with
  | some db =>
    some (((db.finalAddr + (t - db.virtual_offset) : Nat) : Int) - (curAddr : Int), true)
  | none =>
    if t < (blocks.getD curIdx cbDefault).virtual_offset then
      backwardScan curAddr t ((blocks.take (curIdx + 1)).reverse)
    else
      forwardScan t 0 (blocks.drop curIdx)

/-! ### Code emission (chum_parser::write_code_blocks, main.cpp:269-461)

For a relative code block the source re-decodes its single instruction
(ZydisDecoderDecodeFull at the block file offset, main.cpp:317-319); this
decode is abstracted as `decode : Nat → Option EmitInstr` indexed by file
offset.  Byte contents of non-relative copies are not tracked, only the
write cursor; the deferred forward patches are tracked exactly. -/

/-- What write_code_blocks reads off a decoded relative instruction:
its length, the popcount of the encoder-request prefix mask
(main.cpp:357), whether it has a ModRM byte (ZYDIS_ATTRIB_HAS_MODRM),
its branch kind (none when branch_type is NONE), raw.disp.offset, and the
target delta found by get_instruction_target_delta (main.cpp:948-974). -/
structure EmitInstr where
  length : Nat
  prefixCount : Nat
  hasModrm : Bool
  branchKind : Option BranchKind
  dispOffset : Nat
  targetDelta : Int
deriving DecidableEq, Repr

/-- A forward_target record (main.cpp:280-286). -/
structure PatchRec where
  instrAddr : Nat
  virtual_offset : Nat
  patchOffset : Nat
  patchLength : Nat
  instrLength : Nat
deriving DecidableEq, Repr

/-- One deferred-patch write (main.cpp:443-452): the int8 / int32 value
stored at instrAddr + patchOffset. -/
structure PatchEvent where
  instrAddr : Nat
  patchOffset : Nat
  patchLength : Nat
  value : Int
deriving DecidableEq, Repr

/-- The pending forward_targets container is a std::priority_queue whose
comparator is left.virtual_offset < right.virtual_offset (main.cpp:288-295),
i.e. a max-heap: top() is the pending record with the LARGEST target RVA.
Modelled as a list sorted descending by virtual_offset with top at the
head; the relative order of equal keys is unspecified in the source. -/
def pqPush (p : PatchRec) : List PatchRec → List PatchRec
  | [] => [p]
  | q :: qs =>
    if q.virtual_offset < p.virtual_offset then p :: q :: qs else q :: pqPush p qs

/-- The drain loop at main.cpp:432-455: pop records while the top target RVA
is ≤ the end of the block just written, computing
actual_delta = target_final_address - (instruction_address + instruction_length)
and writing it as an int8 (patch length 1) or int32 (patch length 4).
The int8 / int32 stores are the balanced residues mod 2^8 / 2^32. -/
def drainPatches (cbVo cbSize cbAddr : Nat) :
    List PatchRec → List PatchEvent → List PatchRec × List PatchEvent
  | [], evs => ([], evs)
  | p :: ps, evs =>
    if p.virtual_offset ≤ cbVo + cbSize then
      let targetFinal : Nat := cbAddr + (p.virtual_offset - cbVo)
      let d : Int := (targetFinal : Int) - ((p.instrAddr : Int) + (p.instrLength : Int))
      let v : Int := if p.patchLength = 1 then Int.bmod d 256 else Int.bmod d (2 ^ 32)
      drainPatches cbVo cbSize cbAddr ps
        (evs ++ [⟨p.instrAddr, p.patchOffset, p.patchLength, v⟩])
    else
      (p :: ps, evs)

/-- The overall result of write_code_blocks: per code block its
(final_virtual_address, final_size), the forward_targets still pending when
the loop ends, and the patch writes performed. -/
structure EmitResult where
  finals : List (Nat × Nat)
  pending : List PatchRec
  events : List PatchEvent
deriving DecidableEq, Repr

/-- Record the final_virtual_address assigned to block i (the write at
main.cpp:92); only that field changes. -/
def setFinalAddr (blocks : List CodeBlockM) (i addr : Nat) : List CodeBlockM :=
  blocks.set i { blocks.getD i cbDefault with finalAddr := addr }

/-- target_virtual_offset (main.cpp:343-344): cb.virtual_offset (uint32) +
instruction length + the int32 truncation of the target delta, in uint32
arithmetic. -/
def targetVirtualOffset (cb : CodeBlockM) (i : EmitInstr) : Nat :=
  (((cb.virtual_offset : Int) + (i.length : Int) + Int.bmod i.targetDelta (2 ^ 32)).emod
    (2 ^ 32)).toNat

/-- The per-index loop of write_code_blocks (main.cpp:297-456).  The first
argument counts the remaining blocks (the loop runs curIdx up to the block
count).  Failures (decode failure, encoder failure, unhandled relative
instruction, delta out of range, out of space) all return false in the
source and none here. -/
def emitLoop (decode : Nat → Option EmitInstr) (dbs : List DataBlockM) :
    Nat → Nat → List CodeBlockM → WriterSt → List PatchRec → List PatchEvent →
    List (Nat × Nat) → Option EmitResult
  | 0, _, _, _, pending, events, finals => some ⟨finals, pending, events⟩
  | n + 1, curIdx, blocks, w, pending, events, finals =>
    let cb := blocks.getD curIdx cbDefault
    if cb.is_relative = false then
      -- main.cpp:301-311: plain copy of the block bytes, then `continue`
      -- (the drain loop below is skipped).
      match forceWrite (w.regions.length + 1) w cb.file_size with
      | none => none
      | some (w2, addr, sz) =>
        emitLoop decode dbs n (curIdx + 1) (setFinalAddr blocks curIdx addr) w2
          pending events (finals ++ [(addr, sz)])
    else
      match decode cb.file_offset with
      | none => none
      | some i =>
        let tvo := targetVirtualOffset cb i
        match calcAdjustedTargetDelta blocks dbs curIdx (currentWriteAddress w) tvo with
        | none => none
        | some (delta0, fullyResolved) =>
          if i.hasModrm then
            -- main.cpp:360-386: RIP-relative memory access.
            let delta := delta0 - (i.length : Int)
            if 0x7FFFFFFF < |delta| then none
            else
              let newLen := if fullyResolved then i.length else 15
              let pending2 :=
                if fullyResolved then pending
                else pqPush ⟨currentWriteAddress w, tvo, i.dispOffset, 4, i.length⟩ pending
              match forceWrite (w.regions.length + 1) w newLen with
              | none => none
              | some (w2, addr, sz) =>
                let dr := drainPatches cb.virtual_offset cb.file_size addr pending2 events
                emitLoop decode dbs n (curIdx + 1) (setFinalAddr blocks curIdx addr) w2
                  dr.1 dr.2 (finals ++ [(addr, sz)])
          else
            match i.branchKind with
            | none => none
            | some k =>
              -- main.cpp:388-416: relative branch.
              match reencode_relative_branch k i.prefixCount delta0 with
              | none => none
              | some (len, opSz, _imm) =>
                let pending2 :=
                  if fullyResolved then pending
                  else pqPush ⟨currentWriteAddress w, tvo, len - opSz, opSz, len⟩ pending
                match forceWrite (w.regions.length + 1) w len with
                | none => none
                | some (w2, addr, sz) =>
                  let dr := drainPatches cb.virtual_offset cb.file_size addr pending2 events
                  emitLoop decode dbs n (curIdx + 1) (setFinalAddr blocks curIdx addr) w2
                    dr.1 dr.2 (finals ++ [(addr, sz)])

/-- chum_parser::write_code_blocks (main.cpp:269-461): an empty block list
succeeds immediately; otherwise an empty region list fails; otherwise the
writer starts at the first region and the loop runs over all blocks. -/
def write_code_blocks (decode : Nat → Option EmitInstr) (dbs : List DataBlockM)
    (regions : List MemRegion) (blocks : List CodeBlockM) : Option EmitResult :=
  match blocks with
  | [] => some ⟨[], [], []⟩
  | _ :: _ =>
    match regions with
    | [] => none
    | _ :: _ => emitLoop decode dbs blocks.length 0 blocks ⟨regions, 0, 0⟩ [] [] []

/-- chum_parser::write (main.cpp:183-195): data blocks are written first;
code blocks are written only if data emission succeeded. -/
def chum_write (decode : Nat → Option EmitInstr) (dataRegions codeRegions : List MemRegion)
    (fileBuf : List Nat) (dbs : List DataBlockM) (blocks : List CodeBlockM) :
    Option (List (Nat × List Nat) × EmitResult) :=
  match write_data_blocks dataRegions fileBuf dbs with
  | none => none
  | some dataOut =>
    match write_code_blocks decode dbs codeRegions blocks with
    | none => none
    | some codeOut => some (dataOut, codeOut)

/-! ### Concrete inputs used by evaluations and witnesses -/

/-- One section mapping RVAs [0, 4096) to the identical file offsets. -/
def demoSections : List PESection := [⟨0, 4096, 0⟩]

/-- Instruction stream with a relative CALL of length 5 at offset 0 (its
immediate is 5, so its target RVA is 0 + 5 + 5 = 10), a RET at offset 5 and
a RET at offset 10.  parse2 never reads the immediate: DecInstr does not
even need to carry it. -/
def demoDecodeCall : Nat → Option DecInstr := fun fo =>
  if fo = 0 then some ⟨5, ICat.call, true⟩
  else if fo = 5 then some ⟨1, ICat.ret, false⟩
  else if fo = 10 then some ⟨1, ICat.ret, false⟩
  else none

/-- Instruction stream whose decoding fails at file offset 1. -/
def demoDecodeFail : Nat → Option DecInstr := fun fo =>
  if fo = 20 then some ⟨1, ICat.ret, false⟩
  else if fo = 0 then some ⟨1, ICat.other, false⟩
  else none

/-- Two code blocks as parse2 builds them: a relative JMP rel8 block of
length 2 at RVA 0 (expected_size 2 + 32 = 34) targeting RVA 0 + 2 + 8 = 10,
followed by a non-relative block covering RVAs [2, 12). -/
def demoEmitBlocks : List CodeBlockM :=
  [⟨0, 0, 2, 34, true, 0⟩, ⟨2, 2, 10, 10, false, 0⟩]

/-- The decoded JMP of the first demo block: length 2, no prefixes, no
ModRM, immediate 8. -/
def demoEmitDecode : Nat → Option EmitInstr := fun fo =>
  if fo = 0 then some ⟨2, 0, false, some BranchKind.jmp, 0, 8⟩ else none

def demoCodeRegions : List MemRegion := [⟨4096, 16384⟩]

/-! ### C10 -/

/-- C10: for every RVA inside no section's virtual range
[VirtualAddress, VirtualAddress + VirtualSize), rva_to_file_offset returns
0; the unmapped RVA silently aliases file offset 0 (the return type has no
error channel). -/
theorem c10_unmapped_rva_gives_offset_zero (sections : List PESection) (rva : Nat)
    (h : ∀ s ∈ sections,
      ¬(s.virtualAddress ≤ rva ∧ rva < s.virtualAddress + s.virtualSize)) :
    rva_to_file_offset sections rva = 0 := by
  induction sections with
  | nil => rfl
  | cons s ss ih =>
    unfold rva_to_file_offset
    rw [if_neg (h s (List.mem_cons_self s ss))]
    exact ih fun x hx => h x (List.mem_cons_of_mem s hx)

/-- Witness for C10 at a concrete unmapped RVA. -/
theorem c10_witness : rva_to_file_offset [⟨4096, 512, 1024⟩] 0 = 0 :=
  c10_unmapped_rva_gives_offset_zero [⟨4096, 512, 1024⟩] 0 (by decide)

/-! ### C2 -/

/-- C2: the branch re-encoding selects rel8 (length P+2) for a JMP or Jcc
when |d - (P+2)| ≤ 0x7F, otherwise rel32 (length P+5) for a JMP or CALL
when |d - (P+5)| ≤ 0x7FFFFFFF, otherwise rel32 (length P+6) for a Jcc when
|d - (P+6)| ≤ 0x7FFFFFFF, and fails when no form applies; every stored
immediate equals d minus the encoded instruction's length. -/
theorem c2_branch_reencoding_table (k : BranchKind) (P : Nat) (d : Int) :
    (((k = BranchKind.jmp ∨ k = BranchKind.jcc) ∧ |d - ((P : Int) + 2)| ≤ 0x7F) →
      reencode_relative_branch k P d = some (P + 2, 1, d - ((P : Int) + 2))) ∧
    (¬((k = BranchKind.jmp ∨ k = BranchKind.jcc) ∧ |d - ((P : Int) + 2)| ≤ 0x7F) →
      ((k = BranchKind.jmp ∨ k = BranchKind.call) ∧ |d - ((P : Int) + 5)| ≤ 0x7FFFFFFF) →
      reencode_relative_branch k P d = some (P + 5, 4, d - ((P : Int) + 5))) ∧
    (¬((k = BranchKind.jmp ∨ k = BranchKind.jcc) ∧ |d - ((P : Int) + 2)| ≤ 0x7F) →
      ¬((k = BranchKind.jmp ∨ k = BranchKind.call) ∧ |d - ((P : Int) + 5)| ≤ 0x7FFFFFFF) →
      (k = BranchKind.jcc ∧ |d - ((P : Int) + 6)| ≤ 0x7FFFFFFF) →
      reencode_relative_branch k P d = some (P + 6, 4, d - ((P : Int) + 6))) ∧
    (¬((k = BranchKind.jmp ∨ k = BranchKind.jcc) ∧ |d - ((P : Int) + 2)| ≤ 0x7F) →
      ¬((k = BranchKind.jmp ∨ k = BranchKind.call) ∧ |d - ((P : Int) + 5)| ≤ 0x7FFFFFFF) →
      ¬(k = BranchKind.jcc ∧ |d - ((P : Int) + 6)| ≤ 0x7FFFFFFF) →
      reencode_relative_branch k P d = none) ∧
    (∀ l o m, reencode_relative_branch k P d = some (l, o, m) → m = d - (l : Int)) := by
  refine ⟨?_, ?_, ?_, ?_, ?_⟩
  · intro h
    cases k <;> simp_all [reencode_relative_branch, isCall]
  · intro h1 h2
    cases k <;> simp_all [reencode_relative_branch, isCall]
  · intro h1 h2 h3
    cases k <;> simp_all [reencode_relative_branch, isCall]
  · intro h1 h2 h3
    cases k <;> simp_all [reencode_relative_branch, isCall] <;>
      split_ifs <;> first | rfl | linarith
  · intro l o m h
    unfold reencode_relative_branch at h
    split_ifs at h <;>
      simp only [Option.some.injEq, Prod.mk.injEq] at h <;>
      obtain ⟨hl, _, hm⟩ := h <;> subst hl <;> push_cast <;> omega

/-- Witness for C2: a short JMP. -/
theorem c2_witness : reencode_relative_branch BranchKind.jmp 0 10 = some (2, 1, 8) :=
  (c2_branch_reencoding_table BranchKind.jmp 0 10).1 (by constructor <;> decide)

/-! ### C6 -/

/-- C6 (refuting): because advance() is the unimplemented stub returning
false (main.cpp:117-120), force_write fails as soon as the write does not
fit the current region, even when further code regions exist; no
region-advancing jump is ever emitted and the block is never restarted at
the next region's base. -/
theorem c6_force_write_never_advances (fuel : Nat) (w : WriterSt) (size : Nat)
    (h : (currentRegion w).size < w.offset + size) :
    forceWrite fuel w size = none := by
  cases fuel with
  | zero => rfl
  | succ n => simp only [forceWrite, writerWrite, writerAdvance, if_pos h]

/-- Witness for C6: two 256-byte regions, 200 bytes already written into the
first, a 100-byte write; the claim requires advancing into the second
region, the code fails. -/
theorem c6_witness :
    forceWrite 3 ⟨[⟨1000, 256⟩, ⟨2000, 256⟩], 0, 200⟩ 100 = none :=
  c6_force_write_never_advances 3 ⟨[⟨1000, 256⟩, ⟨2000, 256⟩], 0, 200⟩ 100 (by decide)

/-! ### C1 -/

/-- C1 (refuting evaluation): parse2 on a single seed whose block is
CALL (length 5, target RVA 10); RET.  The CALL's target is decodable (a RET
at file offset 10), yet the traversal produces only the blocks at RVAs 0
and 5: the target RVA is never enqueued (main.cpp:686-691 only logs it) and
never becomes a basic block of its own. -/
theorem c1_call_target_never_enqueued :
    (parse2 demoDecodeCall demoSections 32 [0]).map
        (fun bs => bs.map (fun p => p.1.virtual_offset)) = some [0, 5] ∧
    demoDecodeCall 10 = some ⟨1, ICat.ret, false⟩ := by
  constructor
  · decide
  · decide

/-! ### C3 -/

/-- C3 (refuting evaluation): the first block is a relative forward JMP to
RVA 10, which lies inside the second (non-relative) block [2, 12).  Its
patch record is pushed, but after the second block is emitted the drain loop
is skipped (the non-relative path continues past it, main.cpp:301-311), so
write_code_blocks ends successfully with the patch still pending and no
patch write performed — the pending set is not drained and not empty. -/
theorem c3_pending_patch_survives_emission :
    write_code_blocks demoEmitDecode [] demoCodeRegions demoEmitBlocks =
      some ⟨[(4096, 2), (4098, 10)], [⟨4096, 10, 1, 1, 2⟩], []⟩ := by
  decide

/-! ### C7 -/

/-- C7 (refuting evaluation): two seeds; the block of the second-processed
seed (RVA 0) fails to decode at its second instruction.  The whole parse
fails (parse2 returns failure) instead of truncating the block and
continuing: one decode failure is fatal to disassembly as a whole. -/
theorem c7_decode_failure_counterexample :
    parse2 demoDecodeFail demoSections 32 [0, 20] = none := by
  decide

/-- C7 (amended): when decoding fails inside the block of the work-queue
entry being processed, parse2's queue loop fails as a whole; the remaining
work-queue entries are not processed. -/
theorem c7_decode_failure_is_fatal (decode : Nat → Option DecInstr)
    (sections : List PESection) (fuel rva : Nat) (rest : List Nat)
    (acc : List (CodeBlockM × List DecInstr))
    (h : decodeLoop decode rva (rva_to_file_offset sections rva) fuel 0
        (emptyBlock rva (rva_to_file_offset sections rva)) [] [] = none) :
    parse2Go decode sections fuel (rva :: rest) acc = none := by
  simp only [parse2Go, h]

/-- Witness for the amended C7. -/
theorem c7_witness :
    parse2Go (fun _ => none) demoSections 5 (0 :: [7]) [] = none :=
  c7_decode_failure_is_fatal (fun _ => none) demoSections 5 0 [7] [] (by decide)

/-! ### The parse2 block invariant (towards C9 and C4) -/

/-- Invariant of every block built by parse2, paired with the (ghost) list
of instructions appended to it: file_size is the sum of instruction
lengths, expected_size is that sum plus 32 per relative instruction,
a relative block holds exactly one relative instruction, a non-relative
block only non-relative ones, and all decoded lengths are positive. -/
def blockInv (p : CodeBlockM × List DecInstr) : Prop :=
  p.1.file_size = (p.2.map (fun i => i.length)).sum ∧
  p.1.expected_size = (p.2.map (fun i => i.length)).sum +
    32 * (p.2.filter (fun i => i.isRelative)).length ∧
  (p.1.is_relative = true → ∃ i, p.2 = [i] ∧ i.isRelative = true) ∧
  (p.1.is_relative = false → ∀ i ∈ p.2, i.isRelative = false) ∧
  (∀ i ∈ p.2, 0 < i.length)

theorem blockInv_empty (rva fo : Nat) : blockInv (emptyBlock rva fo, []) := by
  simp [blockInv, emptyBlock]

theorem eq_nil_of_len_sum_eq_zero (l : List DecInstr)
    (h : (l.map (fun i => i.length)).sum = 0) (hp : ∀ i ∈ l, 0 < i.length) :
    l = [] := by
  cases l with
  | nil => rfl
  | cons x xs =>
    exfalso
    simp only [List.map_cons, List.sum_cons] at h
    have := hp x (List.mem_cons_self x xs)
    omega

theorem blockInv_close (blockRva fileOff off : Nat) (cb : CodeBlockM)
    (instrs : List DecInstr) (acc : List (CodeBlockM × List DecInstr))
    (cb1 : CodeBlockM) (instrs1 : List DecInstr)
    (acc1 : List (CodeBlockM × List DecInstr))
    (h1 : blockInv (cb, instrs)) (h2 : ∀ p ∈ acc, blockInv p)
    (he : closeIfRelative blockRva fileOff off cb instrs acc = (cb1, instrs1, acc1)) :
    blockInv (cb1, instrs1) ∧ (∀ p ∈ acc1, blockInv p) ∧ cb1.is_relative = false := by
  unfold closeIfRelative at he
  by_cases hr : cb.is_relative = true
  · rw [if_pos hr] at he
    injection he with e1 e23
    injection e23 with e2 e3
    subst e1; subst e2; subst e3
    refine ⟨blockInv_empty _ _, ?_, rfl⟩
    intro p hp
    rcases List.mem_append.mp hp with hp | hp
    · exact h2 p hp
    · rw [List.mem_singleton.mp hp]; exact h1
  · rw [if_neg hr] at he
    injection he with e1 e23
    injection e23 with e2 e3
    subst e1; subst e2; subst e3
    refine ⟨h1, h2, ?_⟩
    revert hr; cases cb.is_relative <;> simp

theorem blockInv_append (blockRva fileOff off : Nat) (i : DecInstr)
    (cb : CodeBlockM) (instrs : List DecInstr)
    (acc : List (CodeBlockM × List DecInstr))
    (cb2 : CodeBlockM) (instrs2 : List DecInstr)
    (acc2 : List (CodeBlockM × List DecInstr))
    (hi : 0 < i.length)
    (h1 : blockInv (cb, instrs)) (hr : cb.is_relative = false)
    (h2 : ∀ p ∈ acc, blockInv p)
    (he : appendInstr blockRva fileOff off i cb instrs acc = (cb2, instrs2, acc2)) :
    blockInv (cb2, instrs2) ∧ (∀ p ∈ acc2, blockInv p) := by
  obtain ⟨hfs, hexp, _, hall, hpos⟩ := h1
  dsimp only at hfs hexp hall hpos
  unfold appendInstr at he
  by_cases hir : i.isRelative = true
  · rw [if_pos hir] at he
    by_cases hsz : 0 < cb.file_size
    · rw [if_pos hsz] at he
      injection he with e1 e23
      injection e23 with e2 e3
      subst e1; subst e2; subst e3
      refine ⟨⟨by simp, by simp [hir], ?_, ?_, ?_⟩, ?_⟩
      · intro _; exact ⟨i, rfl, hir⟩
      · intro hfalse; simp [emptyBlock] at hfalse
      · intro j hj; rw [List.mem_singleton.mp hj]; exact hi
      · intro p hp
        rcases List.mem_append.mp hp with hp | hp
        · exact h2 p hp
        · rw [List.mem_singleton.mp hp]
          exact ⟨hfs, hexp, fun h => absurd h (by rw [hr]; simp), hall, hpos⟩
    · rw [if_neg hsz] at he
      injection he with e1 e23
      injection e23 with e2 e3
      subst e1; subst e2; subst e3
      have hnil : instrs = [] := by
        refine eq_nil_of_len_sum_eq_zero instrs ?_ hpos
        omega
      subst hnil
      refine ⟨⟨by simp, by simp [hir], ?_, ?_, ?_⟩, h2⟩
      · intro _; exact ⟨i, rfl, hir⟩
      · intro hfalse; simp at hfalse
      · intro j hj; rw [List.mem_singleton.mp hj]; exact hi
  · rw [if_neg hir] at he
    injection he with e1 e23
    injection e23 with e2 e3
    subst e1; subst e2; subst e3
    have hirf : i.isRelative = false := by revert hir; cases i.isRelative <;> simp
    refine ⟨⟨?_, ?_, ?_, ?_, ?_⟩, h2⟩
    · simp [hfs]
    · simp [hexp, hirf]; omega
    · intro hfalse; rw [hr] at hfalse; exact absurd hfalse (by simp)
    · intro _ j hj
      rcases List.mem_append.mp hj with hj | hj
      · exact hall hr j hj
      · rw [List.mem_singleton.mp hj]; exact hirf
    · intro j hj
      rcases List.mem_append.mp hj with hj | hj
      · exact hpos j hj
      · rw [List.mem_singleton.mp hj]; exact hi

theorem decodeLoop_inv (decode : Nat → Option DecInstr)
    (hlen : ∀ fo i, decode fo = some i → 0 < i.length) (blockRva fileOff : Nat) :
    ∀ (fuel off : Nat) (cb : CodeBlockM) (instrs : List DecInstr)
      (acc out : List (CodeBlockM × List DecInstr)),
      blockInv (cb, instrs) → (∀ p ∈ acc, blockInv p) →
      decodeLoop decode blockRva fileOff fuel off cb instrs acc = some out →
      ∀ p ∈ out, blockInv p := by
  intro fuel
  induction fuel with
  | zero =>
    intro off cb instrs acc out _ _ h
    exact absurd h (by simp [decodeLoop])
  | succ n ih =>
    intro off cb instrs acc out h1 h2 h
    rw [decodeLoop] at h
    cases hd : decode (fileOff + off) with
    | none => rw [hd] at h; exact absurd h (by simp)
    | some i =>
      rw [hd] at h
      rcases e1 : closeIfRelative blockRva fileOff off cb instrs acc with ⟨cb1, instrs1, acc1⟩
      rw [e1] at h
      obtain ⟨k1, k2, k3⟩ := blockInv_close blockRva fileOff off cb instrs acc
        cb1 instrs1 acc1 h1 h2 e1
      dsimp only at h
      rcases e2 : appendInstr blockRva fileOff off i cb1 instrs1 acc1 with ⟨cb2, instrs2, acc2⟩
      rw [e2] at h
      obtain ⟨m1, m2⟩ := blockInv_append blockRva fileOff off i cb1 instrs1 acc1
        cb2 instrs2 acc2 (hlen _ i hd) k1 k3 k2 e2
      by_cases hex : isExitPoint i.category
      · rw [if_pos hex] at h
        simp only [Option.some.injEq] at h
        subst h
        intro p hp
        rcases List.mem_append.mp hp with hp | hp
        · exact m2 p hp
        · rw [List.mem_singleton.mp hp]; exact m1
      · rw [if_neg hex] at h
        exact ih _ _ _ _ _ m1 m2 h

theorem parse2Go_inv (decode : Nat → Option DecInstr)
    (hlen : ∀ fo i, decode fo = some i → 0 < i.length)
    (sections : List PESection) (fuel : Nat) :
    ∀ (q : List Nat) (acc out : List (CodeBlockM × List DecInstr)),
      (∀ p ∈ acc, blockInv p) →
      parse2Go decode sections fuel q acc = some out →
      ∀ p ∈ out, blockInv p := by
  intro q
  induction q with
  | nil =>
    intro acc out h2 h
    rw [parse2Go] at h
    simp only [Option.some.injEq] at h
    subst h; exact h2
  | cons rva rest ih =>
    intro acc out h2 h
    rw [parse2Go] at h
    cases hd : decodeLoop decode rva (rva_to_file_offset sections rva) fuel 0
        (emptyBlock rva (rva_to_file_offset sections rva)) [] [] with
    | none => rw [hd] at h; exact absurd h (by simp)
    | some blocks =>
      rw [hd] at h
      have hblocks := decodeLoop_inv decode hlen rva (rva_to_file_offset sections rva)
        fuel 0 _ _ [] blocks (blockInv_empty _ _) (by intro p hp; exact absurd hp (by simp)) hd
      refine ih _ out ?_ h
      intro p hp
      rcases List.mem_append.mp hp with hp | hp
      · exact h2 p hp
      · exact hblocks p hp

theorem parse2_inv (decode : Nat → Option DecInstr)
    (hlen : ∀ fo i, decode fo = some i → 0 < i.length)
    (sections : List PESection) (fuel : Nat) (seeds : List Nat)
    (out : List (CodeBlockM × List DecInstr))
    (h : parse2 decode sections fuel seeds = some out) :
    ∀ p ∈ out, blockInv p :=
  parse2Go_inv decode hlen sections fuel seeds.reverse [] out
    (by intro p hp; exact absurd hp (by simp)) h

/-! ### C9 -/

/-- C9: every code block flagged is_relative that parse2 builds holds
exactly one instruction, that instruction is relative, and the block's
file_size equals its length; non-relative blocks contain no relative
instruction.  (Code emission decodes exactly one instruction per relative
block: emitLoop calls decode once at the block's file_offset.) -/
theorem c9_relative_blocks_hold_one_instruction (decode : Nat → Option DecInstr)
    (sections : List PESection) (fuel : Nat) (seeds : List Nat)
    (bs : List (CodeBlockM × List DecInstr))
    (hlen : ∀ fo i, decode fo = some i → 0 < i.length)
    (h : parse2 decode sections fuel seeds = some bs) :
    ∀ p ∈ bs,
      (p.1.is_relative = true →
        ∃ i, p.2 = [i] ∧ i.isRelative = true ∧ p.1.file_size = i.length) ∧
      (p.1.is_relative = false → ∀ i ∈ p.2, i.isRelative = false) := by
  intro p hp
  obtain ⟨hfs, _, hrel, hnonrel, _⟩ := parse2_inv decode hlen sections fuel seeds bs h p hp
  refine ⟨?_, hnonrel⟩
  intro hr
  obtain ⟨i, hi2, hir⟩ := hrel hr
  refine ⟨i, hi2, hir, ?_⟩
  rw [hfs, hi2]; simp

/-- Witness for C9 on the concrete CALL; RET stream: the relative block of
the CALL holds exactly that single relative instruction and its file_size
is the instruction's length. -/
theorem c9_witness :
    ∃ i, [(⟨5, ICat.call, true⟩ : DecInstr)] = [i] ∧ i.isRelative = true ∧
      ((⟨0, 0, 5, 37, true, 0⟩ : CodeBlockM), [(⟨5, ICat.call, true⟩ : DecInstr)]).1.file_size =
        i.length :=
  (c9_relative_blocks_hold_one_instruction demoDecodeCall demoSections 32 [0]
    [((⟨0, 0, 5, 37, true, 0⟩ : CodeBlockM), [(⟨5, ICat.call, true⟩ : DecInstr)]),
     ((⟨5, 5, 1, 1, false, 0⟩ : CodeBlockM), [(⟨1, ICat.ret, false⟩ : DecInstr)])]
    (by
      intro fo i h
      unfold demoDecodeCall at h
      split_ifs at h <;> injection h with h2 <;> rw [← h2] <;> decide)
    (by decide)
    ((⟨0, 0, 5, 37, true, 0⟩ : CodeBlockM), [(⟨5, ICat.call, true⟩ : DecInstr)])
    (by decide)).1 rfl

/-! ### C4 -/

/-- Spec-side reformulation: the index of the first block (scanning forward)
whose range [virtual_offset, virtual_offset + file_size] — inclusive at the
upper end, as in the source's containment test — covers t. -/
def findCoverIdx (t : Nat) : List CodeBlockM → Option Nat
  | [] => none
  | b :: bs =>
    if b.virtual_offset ≤ t ∧ t ≤ b.virtual_offset + b.file_size then some 0
    else (findCoverIdx t bs).map (· + 1)

theorem forwardScan_eq_findCoverIdx (t : Nat) :
    ∀ (bs : List CodeBlockM) (acc : Int),
      forwardScan t acc bs =
        (findCoverIdx t bs).map
          (fun j =>
            (acc + (((bs.take (j + 1)).map (fun b => (b.expected_size : Int))).sum),
              false)) := by
  intro bs
  induction bs with
  | nil => intro acc; rfl
  | cons b bs ih =>
    intro acc
    rw [forwardScan, findCoverIdx]
    have hiff : (t < b.virtual_offset ∨ b.virtual_offset + b.file_size < t) ↔
        ¬(b.virtual_offset ≤ t ∧ t ≤ b.virtual_offset + b.file_size) := by omega
    by_cases hc : b.virtual_offset ≤ t ∧ t ≤ b.virtual_offset + b.file_size
    · rw [if_neg (fun hneg => (hiff.mp hneg) hc), if_pos hc]
      simp
    · rw [if_pos (hiff.mpr hc), if_neg hc, ih]
      cases hfind : findCoverIdx t bs with
      | none => rfl
      | some j =>
        simp only [Option.map_some', Option.some.injEq, Prod.mk.injEq]
        refine ⟨?_, trivial⟩
        rw [List.take_succ_cons, List.map_cons, List.sum_cons]
        ring

/-- C4: (a) when the target is in no data block and is not a backward
target, calculate_adjusted_target_delta scans forward from the current
block inclusive and returns, for the first block covering the target, the
sum of the expected sizes of the blocks from the current one up to and
including it (flagged not fully resolved), failing when no scanned block
covers the target; (b) every block parse2 builds has expected_size equal to
the sum of its instruction lengths plus 32 per relative instruction it
contains. -/
theorem c4_pessimistic_forward_delta :
    (∀ (blocks : List CodeBlockM) (dbs : List DataBlockM) (curIdx curAddr t : Nat),
      findDataBlock dbs t = none →
      (blocks.getD curIdx cbDefault).virtual_offset ≤ t →
      calcAdjustedTargetDelta blocks dbs curIdx curAddr t =
        (findCoverIdx t (blocks.drop curIdx)).map
          (fun j =>
            ((((blocks.drop curIdx).take (j + 1)).map
                (fun b => (b.expected_size : Int))).sum, false))) ∧
    (∀ (decode : Nat → Option DecInstr) (sections : List PESection)
        (fuel : Nat) (seeds : List Nat) (bs : List (CodeBlockM × List DecInstr)),
      (∀ fo i, decode fo = some i → 0 < i.length) →
      parse2 decode sections fuel seeds = some bs →
      ∀ p ∈ bs, p.1.expected_size =
        (p.2.map (fun i => i.length)).sum +
          32 * (p.2.filter (fun i => i.isRelative)).length) := by
  constructor
  · intro blocks dbs curIdx curAddr t hdata hge
    unfold calcAdjustedTargetDelta
    rw [hdata, if_neg (Nat.not_lt.mpr hge), forwardScan_eq_findCoverIdx]
    simp
  · intro decode sections fuel seeds bs hlen h p hp
    exact (parse2_inv decode hlen sections fuel seeds bs h p hp).2.1

/-- Witness for C4 at the concrete two-block layout: the JMP in the first
block targets RVA 10 inside the second block, so the pessimistic delta is
expected_size(block 0) + expected_size(block 1) = 34 + 10 = 44. -/
theorem c4_witness :
    calcAdjustedTargetDelta demoEmitBlocks [] 0 4096 10 =
      (findCoverIdx 10 (demoEmitBlocks.drop 0)).map
        (fun j =>
          ((((demoEmitBlocks.drop 0).take (j + 1)).map
              (fun b => (b.expected_size : Int))).sum, false)) ∧
    calcAdjustedTargetDelta demoEmitBlocks [] 0 4096 10 = some (44, false) :=
  ⟨c4_pessimistic_forward_delta.1 demoEmitBlocks [] 0 4096 10 rfl (by decide),
    by decide⟩

/-! ### C5 -/

def dbDefault : DataBlockM := ⟨0, 0, 0, 0, 0⟩

theorem writeDataGo_isSome (fileBuf : List Nat) (r : MemRegion) :
    ∀ (dbs : List DataBlockM) (off : Nat), off ≤ r.size →
      ((writeDataGo fileBuf r off dbs).isSome = true ↔
        ∀ k, k < dbs.length →
          off + ((dbs.take k).map (fun d => d.virtual_size)).sum +
            (dbs.getD k dbDefault).virtual_size ≤ r.size) := by
  intro dbs
  induction dbs with
  | nil =>
    intro off _
    simp [writeDataGo]
  | cons db rest ih =>
    intro off hoff
    rw [writeDataGo]
    by_cases hfit : r.size - off < db.virtual_size
    · rw [if_pos hfit]
      simp only [Option.isSome_none, Bool.false_eq_true, false_iff, not_forall]
      refine ⟨0, ?_⟩
      simp only [List.length_cons, List.take_zero, List.map_nil, List.sum_nil,
        Nat.add_zero, List.getD_cons_zero]
      exact ⟨Nat.succ_pos _, by omega⟩
    · rw [if_neg hfit]
      have hoff2 : off + db.virtual_size ≤ r.size := by omega
      have hiso : (match writeDataGo fileBuf r (off + db.virtual_size) rest with
          | none => none
          | some out =>
            some ((r.base + off, renderDataBlock fileBuf db) :: out)).isSome
          = (writeDataGo fileBuf r (off + db.virtual_size) rest).isSome := by
        cases writeDataGo fileBuf r (off + db.virtual_size) rest <;> rfl
      rw [hiso, ih (off + db.virtual_size) hoff2]
      constructor
      · intro h k hk
        cases k with
        | zero =>
          simp only [List.take_zero, List.map_nil, List.sum_nil, Nat.add_zero,
            List.getD_cons_zero]
          omega
        | succ k2 =>
          have h2 := h k2 (by simp only [List.length_cons] at hk; omega)
          simp only [List.take_succ_cons, List.map_cons, List.sum_cons,
            List.getD_cons_succ]
          omega
      · intro h k hk
        have h2 := h (k + 1) (by simp only [List.length_cons]; omega)
        simp only [List.take_succ_cons, List.map_cons, List.sum_cons,
          List.getD_cons_succ] at h2
        omega

theorem writeDataGo_out (fileBuf : List Nat) (r : MemRegion) :
    ∀ (dbs : List DataBlockM) (off : Nat) (out : List (Nat × List Nat)),
      writeDataGo fileBuf r off dbs = some out →
      out.length = dbs.length ∧
      ∀ k, k < dbs.length →
        out.getD k (0, []) =
          (r.base + off + ((dbs.take k).map (fun d => d.virtual_size)).sum,
            renderDataBlock fileBuf (dbs.getD k dbDefault)) := by
  intro dbs
  induction dbs with
  | nil =>
    intro off out h
    rw [writeDataGo] at h
    simp only [Option.some.injEq] at h
    subst h
    exact ⟨rfl, by intro k hk; exact absurd hk (by simp)⟩
  | cons db rest ih =>
    intro off out h
    rw [writeDataGo] at h
    by_cases hfit : r.size - off < db.virtual_size
    · rw [if_pos hfit] at h; exact absurd h (by simp)
    · rw [if_neg hfit] at h
      cases hrec : writeDataGo fileBuf r (off + db.virtual_size) rest with
      | none => rw [hrec] at h; exact absurd h (by simp)
      | some out2 =>
        rw [hrec] at h
        simp only [Option.some.injEq] at h
        subst h
        obtain ⟨hlen, hk⟩ := ih (off + db.virtual_size) out2 hrec
        refine ⟨by simp [hlen], ?_⟩
        intro k hkl
        cases k with
        | zero =>
          simp only [List.getD_cons_zero, List.take_zero, List.map_nil,
            List.sum_nil, Nat.add_zero]
        | succ k2 =>
          simp only [List.getD_cons_succ, List.take_succ_cons, List.map_cons,
            List.sum_cons]
          rw [hk k2 (by simp only [List.length_cons] at hkl; omega)]
          refine congrArg (fun a => (a, _)) ?_
          omega

/-- C5: data emission appends the blocks sequentially to the first data
region in their original order (the final address of block k is the region
base plus the total virtual size of the blocks before it); it succeeds
exactly when every block's virtual_size fits in the space remaining when it
is reached; the bytes produced for a block are the first
min(file_size, virtual_size) file bytes at its file_offset followed by
zero fill up to virtual_size; and write emits data blocks before (and
independently of) any code block. -/
theorem c5_data_blocks_written_in_order (r : MemRegion) (rest : List MemRegion)
    (fileBuf : List Nat) (dbs : List DataBlockM) :
    ((write_data_blocks (r :: rest) fileBuf dbs).isSome = true ↔
      ∀ k, k < dbs.length →
        ((dbs.take k).map (fun d => d.virtual_size)).sum +
          (dbs.getD k dbDefault).virtual_size ≤ r.size) ∧
    (∀ out, write_data_blocks (r :: rest) fileBuf dbs = some out →
      out.length = dbs.length ∧
      ∀ k, k < dbs.length →
        out.getD k (0, []) =
          (r.base + ((dbs.take k).map (fun d => d.virtual_size)).sum,
            renderDataBlock fileBuf (dbs.getD k dbDefault))) ∧
    (∀ db : DataBlockM,
      db.file_offset + min db.file_size db.virtual_size ≤ fileBuf.length →
      (renderDataBlock fileBuf db).length = db.virtual_size ∧
      (∀ j, j < min db.file_size db.virtual_size →
        (renderDataBlock fileBuf db)[j]? = fileBuf[db.file_offset + j]?) ∧
      (∀ j, min db.file_size db.virtual_size ≤ j → j < db.virtual_size →
        (renderDataBlock fileBuf db)[j]? = some 0)) ∧
    (∀ (decode : Nat → Option EmitInstr) (codeRegions : List MemRegion)
        (blocks : List CodeBlockM) (out : List (Nat × List Nat) × EmitResult),
      chum_write decode (r :: rest) codeRegions fileBuf dbs blocks = some out →
      write_data_blocks (r :: rest) fileBuf dbs = some out.1) := by
  refine ⟨?_, ?_, ?_, ?_⟩
  · cases dbs with
    | nil => simp [write_data_blocks]
    | cons db rest2 =>
      rw [show write_data_blocks (r :: rest) fileBuf (db :: rest2) =
          writeDataGo fileBuf r 0 (db :: rest2) from rfl,
        writeDataGo_isSome fileBuf r (db :: rest2) 0 (Nat.zero_le _)]
      simp
  · intro out h
    cases dbs with
    | nil =>
      rw [show write_data_blocks (r :: rest) fileBuf [] = some [] from rfl] at h
      simp only [Option.some.injEq] at h
      subst h
      exact ⟨rfl, by intro k hk; exact absurd hk (by simp)⟩
    | cons db rest2 =>
      rw [show write_data_blocks (r :: rest) fileBuf (db :: rest2) =
          writeDataGo fileBuf r 0 (db :: rest2) from rfl] at h
      obtain ⟨hlen, hk⟩ := writeDataGo_out fileBuf r (db :: rest2) 0 out h
      refine ⟨hlen, ?_⟩
      intro k hkl
      rw [hk k hkl]
      simp
  · intro db hbuf
    unfold renderDataBlock
    have hn : min db.file_size db.virtual_size ≤ db.virtual_size := Nat.min_le_right _ _
    have hlenA : ((fileBuf.drop db.file_offset).take
        (min db.file_size db.virtual_size)).length = min db.file_size db.virtual_size := by
      simp only [List.length_take, List.length_drop]
      omega
    refine ⟨?_, ?_, ?_⟩
    · simp only [List.length_append, hlenA, List.length_drop, List.length_replicate]
      omega
    · intro j hj
      rw [List.getElem?_append_left (by rw [hlenA]; exact hj),
        List.getElem?_take_of_lt hj, List.getElem?_drop]
    · intro j hj1 hj2
      rw [List.getElem?_append_right (by rw [hlenA]; exact hj1), hlenA,
        List.getElem?_drop]
      have hidx : min db.file_size db.virtual_size +
          (j - min db.file_size db.virtual_size) = j := by omega
      rw [hidx]
      exact List.getElem?_replicate_of_lt hj2
  · intro decode codeRegions blocks out h
    unfold chum_write at h
    cases hd : write_data_blocks (r :: rest) fileBuf dbs with
    | none => rw [hd] at h; exact absurd h (by simp)
    | some d =>
      rw [hd] at h
      cases hc : write_code_blocks decode dbs codeRegions blocks with
      | none => rw [hc] at h; exact absurd h (by simp)
      | some c =>
        rw [hc] at h
        simp only [Option.some.injEq] at h
        subst h
        rfl

/-- Witness for C5: a single data block of virtual size 4 fits a 10-byte
region. -/
theorem c5_witness :
    (write_data_blocks [⟨100, 10⟩] [7, 8, 9] [⟨0, 1, 2, 4, 0⟩]).isSome = true :=
  (c5_data_blocks_written_in_order ⟨100, 10⟩ [] [7, 8, 9] [⟨0, 1, 2, 4, 0⟩]).1.mpr
    (by decide)

/-! ### C8 -/

/-- The per-block facts used to bound the written size of a block.  For a
relative block: its decoded instruction is at least prefixCount + 2 bytes
long (each prefix is one byte, plus opcode and immediate), and parse2 gave
the block expected_size ≥ length + 32 (it assigns exactly length + 32,
main.cpp:717).  For a non-relative block: parse2 made expected_size the sum
of the instruction lengths, which is exactly its file_size
(main.cpp:721-722). -/
def sizeHyp (decode : Nat → Option EmitInstr) (cb : CodeBlockM) : Prop :=
  (cb.is_relative = true →
    ∀ i, decode cb.file_offset = some i →
      i.prefixCount + 2 ≤ i.length ∧ i.length + 32 ≤ cb.expected_size) ∧
  (cb.is_relative = false → cb.file_size ≤ cb.expected_size)

theorem reencode_length_le (k : BranchKind) (P : Nat) (d : Int) (l o : Nat) (m : Int)
    (h : reencode_relative_branch k P d = some (l, o, m)) : l ≤ P + 6 := by
  unfold reencode_relative_branch at h
  split_ifs at h <;> simp only [Option.some.injEq, Prod.mk.injEq] at h <;> omega

theorem forceWrite_size (fuel : Nat) (w : WriterSt) (size : Nat)
    (w2 : WriterSt) (addr sz : Nat)
    (h : forceWrite fuel w size = some (w2, addr, sz)) : sz = size := by
  cases fuel with
  | zero => exact absurd h (by simp [forceWrite])
  | succ n =>
    rw [forceWrite] at h
    cases hw : writerWrite w size with
    | some w3 =>
      rw [hw] at h
      simp only [Option.some.injEq, Prod.mk.injEq] at h
      exact h.2.2.symm
    | none =>
      rw [hw] at h
      exact absurd h (by simp [writerAdvance])

theorem setFinalAddr_stable (blocks : List CodeBlockM) (idx addr k : Nat) :
    ((setFinalAddr blocks idx addr).getD k cbDefault).is_relative =
        (blocks.getD k cbDefault).is_relative ∧
    ((setFinalAddr blocks idx addr).getD k cbDefault).file_offset =
        (blocks.getD k cbDefault).file_offset ∧
    ((setFinalAddr blocks idx addr).getD k cbDefault).file_size =
        (blocks.getD k cbDefault).file_size ∧
    ((setFinalAddr blocks idx addr).getD k cbDefault).expected_size =
        (blocks.getD k cbDefault).expected_size := by
  unfold setFinalAddr
  by_cases hk : idx = k
  · subst hk
    by_cases hlt : idx < blocks.length
    · have h1 : (blocks.set idx
          { blocks.getD idx cbDefault with finalAddr := addr }).getD idx cbDefault =
          { blocks.getD idx cbDefault with finalAddr := addr } := by
        simp [List.getD_eq_getElem?_getD, List.getElem?_set_self hlt]
      rw [h1]
      exact ⟨rfl, rfl, rfl, rfl⟩
    · rw [List.set_eq_of_length_le (by omega)]
      exact ⟨rfl, rfl, rfl, rfl⟩
  · have h1 : (blocks.set idx
        { blocks.getD idx cbDefault with finalAddr := addr }).getD k cbDefault =
        blocks.getD k cbDefault := by
      simp [List.getD_eq_getElem?_getD, List.getElem?_set_ne hk]
    rw [h1]
    exact ⟨rfl, rfl, rfl, rfl⟩

theorem sizeHyp_setFinalAddr (decode : Nat → Option EmitInstr)
    (blocks : List CodeBlockM) (idx addr : Nat)
    (h : ∀ k, sizeHyp decode (blocks.getD k cbDefault)) :
    ∀ k, sizeHyp decode ((setFinalAddr blocks idx addr).getD k cbDefault) := by
  intro k
  obtain ⟨e1, e2, e3, e4⟩ := setFinalAddr_stable blocks idx addr k
  unfold sizeHyp
  rw [e1, e2, e3, e4]
  exact h k

theorem emitLoop_final_size_bound (decode : Nat → Option EmitInstr)
    (dbs : List DataBlockM) :
    ∀ (n curIdx : Nat) (blocks : List CodeBlockM) (w : WriterSt)
      (pending : List PatchRec) (events : List PatchEvent)
      (finals : List (Nat × Nat)) (r : EmitResult),
      (∀ k, sizeHyp decode (blocks.getD k cbDefault)) →
      emitLoop decode dbs n curIdx blocks w pending events finals = some r →
      r.finals.length = finals.length + n ∧
      (∀ k, k < finals.length → r.finals.getD k (0, 0) = finals.getD k (0, 0)) ∧
      (∀ j, j < n →
        (r.finals.getD (finals.length + j) (0, 0)).2 ≤
          (blocks.getD (curIdx + j) cbDefault).expected_size) := by
  intro n
  induction n with
  | zero =>
    intro curIdx blocks w pending events finals r _ h
    rw [emitLoop] at h
    simp only [Option.some.injEq] at h
    subst h
    exact ⟨rfl, fun _ _ => rfl, fun j hj => absurd hj (by omega)⟩
  | succ m ih =>
    intro curIdx blocks w pending events finals r hs h
    have main : ∀ (addr sz : Nat) (w2 : WriterSt) (P2 : List PatchRec)
        (E2 : List PatchEvent),
        sz ≤ (blocks.getD curIdx cbDefault).expected_size →
        emitLoop decode dbs m (curIdx + 1) (setFinalAddr blocks curIdx addr) w2
          P2 E2 (finals ++ [(addr, sz)]) = some r →
        r.finals.length = finals.length + (m + 1) ∧
        (∀ k, k < finals.length → r.finals.getD k (0, 0) = finals.getD k (0, 0)) ∧
        (∀ j, j < m + 1 →
          (r.finals.getD (finals.length + j) (0, 0)).2 ≤
            (blocks.getD (curIdx + j) cbDefault).expected_size) := by
      intro addr sz w2 P2 E2 hsz hrec
      obtain ⟨L, Pre, B⟩ := ih (curIdx + 1) (setFinalAddr blocks curIdx addr) w2 P2 E2
        (finals ++ [(addr, sz)]) r (sizeHyp_setFinalAddr decode blocks curIdx addr hs) hrec
      refine ⟨?_, ?_, ?_⟩
      · rw [L]; simp only [List.length_append, List.length_singleton]; omega
      · intro k hk
        rw [Pre k (by simp only [List.length_append, List.length_singleton]; omega),
          List.getD_append _ _ _ _ hk]
      · intro j hj
        cases j with
        | zero =>
          have h1 := Pre finals.length
            (by simp only [List.length_append, List.length_singleton]; omega)
          rw [Nat.add_zero, h1, List.getD_append_right _ _ _ _ (Nat.le_refl _),
            Nat.sub_self]
          simpa using hsz
        | succ j2 =>
          have h2 := B j2 (by omega)
          obtain ⟨_, _, _, e4⟩ := setFinalAddr_stable blocks curIdx addr (curIdx + 1 + j2)
          rw [e4] at h2
          have e5 : (finals ++ [(addr, sz)]).length + j2 = finals.length + (j2 + 1) := by
            simp only [List.length_append, List.length_singleton]; omega
          have e6 : curIdx + 1 + j2 = curIdx + (j2 + 1) := by omega
          rw [e5, e6] at h2
          exact h2
    simp only [emitLoop] at h
    by_cases hrel : (blocks.getD curIdx cbDefault).is_relative = false
    · rw [if_pos hrel] at h
      cases hfw : forceWrite (w.regions.length + 1) w
          (blocks.getD curIdx cbDefault).file_size with
      | none => rw [hfw] at h; exact absurd h (by simp)
      | some t =>
        rcases t with ⟨w2, addr, sz⟩
        rw [hfw] at h
        refine main addr sz w2 pending events ?_ h
        rw [forceWrite_size _ _ _ _ _ _ hfw]
        exact (hs curIdx).2 hrel
    · have hrelT : (blocks.getD curIdx cbDefault).is_relative = true := by
        revert hrel; cases (blocks.getD curIdx cbDefault).is_relative <;> simp
      rw [if_neg hrel] at h
      cases hdec : decode (blocks.getD curIdx cbDefault).file_offset with
      | none => rw [hdec] at h; exact absurd h (by simp)
      | some i =>
        rw [hdec] at h
        dsimp only at h
        obtain ⟨hpre, hlen32⟩ := (hs curIdx).1 hrelT i hdec
        cases hcd : calcAdjustedTargetDelta blocks dbs curIdx (currentWriteAddress w)
            (targetVirtualOffset (blocks.getD curIdx cbDefault) i) with
        | none => rw [hcd] at h; exact absurd h (by simp)
        | some pr =>
          rcases pr with ⟨delta0, fullyRes⟩
          rw [hcd] at h
          dsimp only at h
          by_cases hmod : i.hasModrm = true
          · rw [if_pos hmod] at h
            by_cases habs : (0x7FFFFFFF : Int) < |delta0 - (i.length : Int)|
            · rw [if_pos habs] at h; exact absurd h (by simp)
            · rw [if_neg habs] at h
              cases hfw : forceWrite (w.regions.length + 1) w
                  (if fullyRes = true then i.length else 15) with
              | none => rw [hfw] at h; exact absurd h (by simp)
              | some t =>
                rcases t with ⟨w2, addr, sz⟩
                rw [hfw] at h
                refine main addr sz w2 _ _ ?_ h
                rw [forceWrite_size _ _ _ _ _ _ hfw]
                by_cases hfr : fullyRes = true
                · rw [if_pos hfr]; omega
                · rw [if_neg hfr]; omega
          · rw [if_neg hmod] at h
            cases hbk : i.branchKind with
            | none => rw [hbk] at h; exact absurd h (by simp)
            | some bk =>
              rw [hbk] at h
              dsimp only at h
              cases hre : reencode_relative_branch bk i.prefixCount delta0 with
              | none => rw [hre] at h; exact absurd h (by simp)
              | some tr =>
                rcases tr with ⟨len2, opSz, imm⟩
                rw [hre] at h
                dsimp only at h
                cases hfw : forceWrite (w.regions.length + 1) w len2 with
                | none => rw [hfw] at h; exact absurd h (by simp)
                | some t =>
                  rcases t with ⟨w2, addr, sz⟩
                  rw [hfw] at h
                  refine main addr sz w2 _ _ ?_ h
                  rw [forceWrite_size _ _ _ _ _ _ hfw]
                  have hb := reencode_length_le bk i.prefixCount delta0 len2 opSz imm hre
                  omega

/-- C8: for every code block, the written (final) size is bounded by the
pessimistic expected size, under the facts parse2 establishes about each
block (sizeHyp): after write_code_blocks succeeds, final_size ≤
expected_size holds for every block. -/
theorem c8_expected_size_bounds_final_size (decode : Nat → Option EmitInstr)
    (dbs : List DataBlockM) (regions : List MemRegion) (blocks : List CodeBlockM)
    (r : EmitResult)
    (hs : ∀ k, sizeHyp decode (blocks.getD k cbDefault))
    (h : write_code_blocks decode dbs regions blocks = some r) :
    r.finals.length = blocks.length ∧
    ∀ k, k < blocks.length →
      (r.finals.getD k (0, 0)).2 ≤ (blocks.getD k cbDefault).expected_size := by
  cases blocks with
  | nil =>
    rw [show write_code_blocks decode dbs regions [] = some ⟨[], [], []⟩ from rfl] at h
    simp only [Option.some.injEq] at h
    subst h
    exact ⟨rfl, by intro k hk; exact absurd hk (by simp)⟩
  | cons b bs =>
    cases regions with
    | nil => exact absurd h (by simp [write_code_blocks])
    | cons rg rgs =>
      rw [show write_code_blocks decode dbs (rg :: rgs) (b :: bs) =
          emitLoop decode dbs (b :: bs).length 0 (b :: bs) ⟨rg :: rgs, 0, 0⟩ [] [] []
          from rfl] at h
      obtain ⟨L, _, B⟩ := emitLoop_final_size_bound decode dbs (b :: bs).length 0
        (b :: bs) ⟨rg :: rgs, 0, 0⟩ [] [] [] r hs h
      refine ⟨by simpa using L, ?_⟩
      intro k hk
      have hb := B k hk
      simpa using hb

/-- Witness for C8 on the concrete two-block emission: final sizes 2 and 10
are bounded by the expected sizes 34 and 10. -/
theorem c8_witness :
    (⟨[(4096, 2), (4098, 10)], [⟨4096, 10, 1, 1, 2⟩], []⟩ : EmitResult).finals.length =
        demoEmitBlocks.length ∧
    ∀ k, k < demoEmitBlocks.length →
      ((⟨[(4096, 2), (4098, 10)], [⟨4096, 10, 1, 1, 2⟩], []⟩ :
          EmitResult).finals.getD k (0, 0)).2 ≤
        (demoEmitBlocks.getD k cbDefault).expected_size :=
  c8_expected_size_bounds_final_size demoEmitDecode [] demoCodeRegions demoEmitBlocks
    ⟨[(4096, 2), (4098, 10)], [⟨4096, 10, 1, 1, 2⟩], []⟩
    (by
      intro k
      match k with
      | 0 =>
        refine ⟨?_, ?_⟩
        · intro _ i hi
          injection hi with h2
          rw [← h2]
          exact ⟨by decide, by decide⟩
        · intro hfalse; exact absurd hfalse (by decide)
      | 1 =>
        refine ⟨?_, ?_⟩
        · intro htrue; exact absurd htrue (by decide)
        · intro _; decide
      | n + 2 =>
        have hdef : demoEmitBlocks.getD (n + 2) cbDefault = cbDefault :=
          List.getD_eq_default demoEmitBlocks cbDefault
            (show demoEmitBlocks.length ≤ n + 2 by show 2 ≤ n + 2; omega)
        rw [hdef]
        refine ⟨?_, ?_⟩
        · intro htrue; exact absurd htrue (by decide)
        · intro _; decide)
    (by decide)

end Chum
